import Mathlib

/-!
Verification of the cendre secret-storage core.

The Rust source is shallowly embedded:

* `Secret` mirrors `backend/src/models.rs` (timestamps become `Int`,
  `ttl_secs : u32` becomes `Nat`, `Option<OffsetDateTime>` becomes
  `Option Int`);
* the in-memory backend `InMemorySecretStore` of `backend/src/db.rs` becomes
  pure state-passing functions over an association map modelling its
  `HashMap<String, Secret>` — nondeterministic inputs (the wall clock and the
  freshly generated id) are passed explicitly;
* `RateLimiter` mirrors `backend/src/lib.rs` (`Instant` becomes `Nat`,
  `Instant::duration_since` becomes truncated subtraction, which matches its
  saturating behaviour);
* `Secret::new`'s id generation (`URL_SAFE_NO_PAD.encode(Uuid::new_v4())`)
  is embedded as an explicit base64url encoder applied to the sixteen random
  bytes drawn by `Uuid::new_v4`, with the version/variant bit masking made
  explicit.
-/

namespace Cendre

/-- Association-map lookup, modelling `HashMap::get` / the lookup half of
`HashMap::remove`.  The store and the rate limiter both key by `String`. -/
def findKey {α : Type} : List (String × α) → String → Option α
  | [], _ => none
  | (k, v) :: rest, id => if k = id then some v else findKey rest id

/-- Association-map removal, modelling the removal half of `HashMap::remove`. -/
def eraseKey {α : Type} : List (String × α) → String → List (String × α)
  | [], _ => []
  | (k, v) :: rest, id =>
      if k = id then eraseKey rest id else (k, v) :: eraseKey rest id

/-- Association-map insertion with replacement, modelling `HashMap::insert`
(and `Entry::or_insert` followed by a write-back). -/
def insertKey {α : Type} (m : List (String × α)) (k : String) (v : α) :
    List (String × α) :=
  (k, v) :: eraseKey m k

theorem findKey_eraseKey_self {α : Type} (m : List (String × α)) (id : String) :
    findKey (eraseKey m id) id = none := by
  induction m with
  | nil => rfl
  | cons kv rest ih =>
      obtain ⟨k, v⟩ := kv
      by_cases h : k = id
      · simp [eraseKey, h, ih]
      · simp [eraseKey, findKey, h, ih]

theorem findKey_eraseKey_ne {α : Type} (m : List (String × α)) (id j : String)
    (h : j ≠ id) : findKey (eraseKey m id) j = findKey m j := by
  induction m with
  | nil => rfl
  | cons kv rest ih =>
      obtain ⟨k, v⟩ := kv
      by_cases hk : k = id
      · subst hk
        simp [eraseKey, findKey, Ne.symm h, ih]
      · by_cases hj : k = j
        · subst hj
          simp [eraseKey, findKey, hk]
        · simp [eraseKey, findKey, hk, hj, ih]

theorem findKey_eraseKey_none {α : Type} (m : List (String × α)) (id j : String)
    (h : findKey m j = none) : findKey (eraseKey m id) j = none := by
  by_cases hj : j = id
  · subst hj; exact findKey_eraseKey_self m j
  · rw [findKey_eraseKey_ne m id j hj]; exact h

theorem findKey_insertKey_self {α : Type} (m : List (String × α)) (k : String)
    (v : α) : findKey (insertKey m k v) k = some v := by
  simp [insertKey, findKey]

theorem findKey_insertKey_ne {α : Type} (m : List (String × α)) (k j : String)
    (v : α) (h : j ≠ k) : findKey (insertKey m k v) j = findKey m j := by
  simp [insertKey, findKey, Ne.symm h, findKey_eraseKey_ne m k j h]

/-- `Secret` from `backend/src/models.rs`: timestamps are modelled as `Int`
(the embedding only compares and adds them), `ttl_secs : u32` as `Nat`. -/
structure Secret where
  id : String
  ciphertext : String
  iv : String
  created_at : Int
  ttl_secs : Nat
  read_at : Option Int
deriving DecidableEq

/-- `Secret::expires_at`: `created_at + Duration::seconds(ttl_secs as i64)`. -/
def Secret.expires_at (s : Secret) : Int :=
  s.created_at + (s.ttl_secs : Int)

/-- `Secret::is_expired_at`: `now >= self.expires_at()`. -/
def Secret.is_expired_at (s : Secret) (now : Int) : Bool :=
  decide (s.expires_at ≤ now)

/-- `Secret::mark_read`: `self.read_at = Some(when)`. -/
def Secret.mark_read (s : Secret) (when : Int) : Secret :=
  { s with read_at := some when }

/-- `Secret::new`, with the two nondeterministic inputs passed explicitly:
`id` stands for `URL_SAFE_NO_PAD.encode(Uuid::new_v4().as_bytes())` and
`now` for `OffsetDateTime::now_utc()`.  All other fields are set exactly as
in the source; in particular `read_at` starts as `None`. -/
def Secret.new (id : String) (now : Int) (ciphertext iv : String)
    (ttl_secs : Nat) : Secret :=
  { id := id
    ciphertext := ciphertext
    iv := iv
    created_at := now
    ttl_secs := ttl_secs
    read_at := none }

/-- The in-memory backend's state: the `HashMap<String, Secret>` behind the
`RwLock` of `InMemorySecretStore`. -/
abbrev SecretMap := List (String × Secret)

/-- `InMemorySecretStore::store_secret`: build `Secret::new(ciphertext, iv,
ttl_secs)` and insert it under its id while holding the write lock.  Returns
the updated map together with the stored record. -/
def store_secret (m : SecretMap) (ciphertext iv : String) (ttl_secs : Nat)
    (id : String) (now : Int) : SecretMap × Secret :=
  let secret := Secret.new id now ciphertext iv ttl_secs
  (insertKey m id secret, secret)

/-- `InMemorySecretStore::get_and_delete_secret`: under the single write lock,
`remove(id)` unconditionally; if an entry was present, return `None` when
`is_expired_at(now)`, otherwise `mark_read(now)` the removed copy and return
it.  Returns the updated map together with the `Option<Secret>` result. -/
def get_and_delete_secret (m : SecretMap) (id : String) (now : Int) :
    SecretMap × Option Secret :=
  match findKey m id with
  | some secret =>
      if secret.is_expired_at now then (eraseKey m id, none)
      else (eraseKey m id, some (secret.mark_read now))
  | none => (eraseKey m id, none)

theorem get_and_delete_map (m : SecretMap) (id : String) (now : Int) :
    (get_and_delete_secret m id now).1 = eraseKey m id := by
  unfold get_and_delete_secret
  cases findKey m id with
  | none => rfl
  | some s => by_cases h : s.is_expired_at now <;> simp [h]

theorem get_and_delete_absent (m : SecretMap) (id : String) (now : Int)
    (h : findKey m id = none) :
    (get_and_delete_secret m id now).2 = none := by
  unfold get_and_delete_secret
  rw [h]

/-- A trace of further `get_and_delete_secret` calls (id and clock reading per
call), applied in order to the store's map. -/
def runGets (m : SecretMap) : List (String × Int) → SecretMap
  | [] => m
  | (id, now) :: rest => runGets (get_and_delete_secret m id now).1 rest

/-- Sequential execution of `get_and_delete_secret` calls that all target the
same id — the serialization order of a race, since the Rust implementation
holds the exclusive write lock for the whole remove-then-inspect.  Returns the
final map and how many of the calls observed the secret. -/
def runRace (m : SecretMap) (id : String) : List Int → SecretMap × Nat
  | [] => (m, 0)
  | now :: rest =>
      let r := get_and_delete_secret m id now
      let r2 := runRace r.1 id rest
      (r2.1, (if r.2.isSome then 1 else 0) + r2.2)

/-- `RateBucket` from `backend/src/lib.rs`; `Instant` is modelled as `Nat`. -/
structure RateBucket where
  window_start : Nat
  count : Nat
deriving DecidableEq

/-- `RateLimiter` from `backend/src/lib.rs`: its configuration together with
the `HashMap<String, RateBucket>` behind the mutex. -/
structure RateLimiter where
  max_requests_per_window : Nat
  window : Nat
  buckets : List (String × RateBucket)
deriving DecidableEq

/-- The bucket `buckets.entry(identity).or_insert(RateBucket { window_start:
now, count: 0 })` yields: the existing one, or a lazily created fresh one. -/
def RateLimiter.entry (rl : RateLimiter) (identity : String) (now : Nat) :
    RateBucket :=
  (findKey rl.buckets identity).getD { window_start := now, count := 0 }

/-- The bucket after the hard-reset step of `RateLimiter::check`: reset to
`window_start = now, count = 0` when `now.duration_since(window_start) >
window`.  Truncated `Nat` subtraction models `Instant::duration_since`'s
saturating behaviour. -/
def RateLimiter.refreshed (rl : RateLimiter) (identity : String) (now : Nat) :
    RateBucket :=
  if rl.window < now - (rl.entry identity now).window_start then
    { window_start := now, count := 0 }
  else rl.entry identity now

/-- `RateLimiter::check`, with the clock reading `now` (`Instant::now()`)
passed explicitly.  Look up or lazily create the identity's bucket
(`entry`), hard-reset it when the window has strictly elapsed (`refreshed`),
then deny when `count >= max_requests_per_window`, otherwise increment and
allow.  The bucket is written back in every path, as `entry(..).or_insert(..)`
mutates the map in place. -/
def RateLimiter.check (rl : RateLimiter) (identity : String) (now : Nat) :
    RateLimiter × Bool :=
  let bucket := rl.refreshed identity now
  if rl.max_requests_per_window ≤ bucket.count then
    ({ rl with buckets := insertKey rl.buckets identity bucket }, false)
  else
    ({ rl with
        buckets :=
          insertKey rl.buckets identity { bucket with count := bucket.count + 1 } },
      true)

/-- A sequence of `check` calls for one identity at the given clock readings;
returns the final limiter state and the list of results. -/
def runChecks (rl : RateLimiter) (identity : String) :
    List Nat → RateLimiter × List Bool
  | [] => (rl, [])
  | now :: rest =>
      let r := rl.check identity now
      let r2 := runChecks r.1 identity rest
      (r2.1, r.2 :: r2.2)

/-- The base64url alphabet (`URL_SAFE_NO_PAD`): value `n < 64` to its
character. -/
def b64UrlChar (n : Nat) : Char :=
  if n < 26 then Char.ofNat (65 + n)
  else if n < 52 then Char.ofNat (97 + (n - 26))
  else if n < 62 then Char.ofNat (48 + (n - 52))
  else if n = 62 then '-'
  else '_'

/-- Inverse table of `b64UrlChar`, used to show the encoding is lossless. -/
def b64CharVal (c : Char) : Nat :=
  if 65 ≤ c.toNat ∧ c.toNat ≤ 90 then c.toNat - 65
  else if 97 ≤ c.toNat ∧ c.toNat ≤ 122 then 26 + (c.toNat - 97)
  else if 48 ≤ c.toNat ∧ c.toNat ≤ 57 then 52 + (c.toNat - 48)
  else if c = '-' then 62
  else 63

/-- Split a byte string into base64 sextets (big-endian bit order), with no
padding sextets — the bit-level content of `URL_SAFE_NO_PAD.encode`. -/
def b64Sextets : List Nat → List Nat
  | [] => []
  | [b0] => [b0 / 4, b0 % 4 * 16]
  | [b0, b1] => [b0 / 4, b0 % 4 * 16 + b1 / 16, b1 % 16 * 4]
  | b0 :: b1 :: b2 :: rest =>
      b0 / 4 :: (b0 % 4 * 16 + b1 / 16) :: (b1 % 16 * 4 + b2 / 64) ::
        b2 % 64 :: b64Sextets rest

/-- Reassemble bytes from base64 sextets: the decoding direction, used to show
`b64Sextets` loses no information. -/
def b64Unsextets : List Nat → List Nat
  | [] => []
  | [_] => []
  | [c0, c1] => [c0 * 4 + c1 / 16]
  | [c0, c1, c2] => [c0 * 4 + c1 / 16, c1 % 16 * 16 + c2 / 4]
  | c0 :: c1 :: c2 :: c3 :: rest =>
      (c0 * 4 + c1 / 16) :: (c1 % 16 * 16 + c2 / 4) :: (c2 % 4 * 64 + c3) ::
        b64Unsextets rest

/-- `URL_SAFE_NO_PAD.encode` on a byte string. -/
def urlSafeNoPadEncode (bytes : List Nat) : String :=
  String.mk ((b64Sextets bytes).map b64UrlChar)

/-- The byte rewrite `Uuid::new_v4` applies at absolute position `j`: byte 6
keeps its low nibble and gets version `4` (`(b & 0x0F) | 0x40`), byte 8 keeps
its low six bits and gets the RFC variant (`(b & 0x3F) | 0x80`). -/
def vbit (j b : Nat) : Nat :=
  if j = 6 then b % 16 + 64
  else if j = 8 then b % 64 + 128
  else b

/-- Apply `vbit` to each byte, tracking the absolute position. -/
def setVersionBits : Nat → List Nat → List Nat
  | _, [] => []
  | i, b :: rest => vbit i b :: setVersionBits (i + 1) rest

/-- `Uuid::new_v4` modelled on the sixteen random bytes it draws: the bytes
pass through unchanged except for the version/variant masking. -/
def uuidV4Bytes (r : List Nat) : List Nat :=
  setVersionBits 0 r

/-- `Secret::new` with the id generation made explicit: the id is the
padding-free base64url rendering of the `Uuid::new_v4` built from the random
bytes `r`. -/
def Secret.newFromRandom (r : List Nat) (now : Int) (ciphertext iv : String)
    (ttl_secs : Nat) : Secret :=
  Secret.new (urlSafeNoPadEncode (uuidV4Bytes r)) now ciphertext iv ttl_secs

/-- URL-safe id characters per the spec and the repository's own test:
ASCII alphanumerics, `-` and `_`. -/
def isUrlSafeChar (c : Char) : Bool :=
  c.isAlphanum || c == '-' || c == '_'

theorem b64Sextets_lt : ∀ (bytes : List Nat), (∀ b ∈ bytes, b < 256) →
    ∀ c ∈ b64Sextets bytes, c < 64
  | [], _, c, hc => by simp [b64Sextets] at hc
  | [b0], h, c, hc => by
      have hb0 : b0 < 256 := h b0 (by simp)
      simp [b64Sextets] at hc
      rcases hc with hc | hc <;> omega
  | [b0, b1], h, c, hc => by
      have hb0 : b0 < 256 := h b0 (by simp)
      have hb1 : b1 < 256 := h b1 (by simp)
      simp [b64Sextets] at hc
      rcases hc with hc | hc | hc <;> omega
  | b0 :: b1 :: b2 :: rest, h, c, hc => by
      have hb0 : b0 < 256 := h b0 (by simp)
      have hb1 : b1 < 256 := h b1 (by simp)
      have hb2 : b2 < 256 := h b2 (by simp)
      simp only [b64Sextets, List.mem_cons] at hc
      rcases hc with hc | hc | hc | hc | hc
      · omega
      · omega
      · omega
      · omega
      · exact b64Sextets_lt rest
          (fun b hb => h b (by simp [hb])) c hc

theorem b64_roundtrip : ∀ (bytes : List Nat), (∀ b ∈ bytes, b < 256) →
    b64Unsextets (b64Sextets bytes) = bytes
  | [], _ => rfl
  | [b0], h => by
      have hb0 : b0 < 256 := h b0 (by simp)
      simp only [b64Sextets, b64Unsextets, List.cons.injEq, and_true]
      omega
  | [b0, b1], h => by
      have hb0 : b0 < 256 := h b0 (by simp)
      have hb1 : b1 < 256 := h b1 (by simp)
      simp only [b64Sextets, b64Unsextets, List.cons.injEq, and_true]
      constructor <;> omega
  | b0 :: b1 :: b2 :: rest, h => by
      have hb0 : b0 < 256 := h b0 (by simp)
      have hb1 : b1 < 256 := h b1 (by simp)
      have hb2 : b2 < 256 := h b2 (by simp)
      simp only [b64Sextets, b64Unsextets, List.cons.injEq]
      refine ⟨by omega, by omega, by omega, ?_⟩
      exact b64_roundtrip rest fun b hb => h b (by simp [hb])

theorem b64CharVal_b64UrlChar : ∀ n < 64, b64CharVal (b64UrlChar n) = n := by
  decide

theorem isUrlSafeChar_b64UrlChar : ∀ n < 64, isUrlSafeChar (b64UrlChar n) = true := by
  decide

theorem map_b64UrlChar_section (l : List Nat) (h : ∀ c ∈ l, c < 64) :
    (l.map b64UrlChar).map b64CharVal = l := by
  induction l with
  | nil => rfl
  | cons c rest ih =>
      simp only [List.map_cons, List.cons.injEq]
      exact ⟨b64CharVal_b64UrlChar c (h c (by simp)),
        ih fun d hd => h d (by simp [hd])⟩

theorem urlSafeNoPadEncode_inj (bs1 bs2 : List Nat)
    (h1 : ∀ b ∈ bs1, b < 256) (h2 : ∀ b ∈ bs2, b < 256)
    (he : urlSafeNoPadEncode bs1 = urlSafeNoPadEncode bs2) : bs1 = bs2 := by
  have hd : (b64Sextets bs1).map b64UrlChar = (b64Sextets bs2).map b64UrlChar :=
    congrArg String.data he
  have hs : b64Sextets bs1 = b64Sextets bs2 := by
    have hmap := congrArg (List.map b64CharVal) hd
    rwa [map_b64UrlChar_section _ (b64Sextets_lt bs1 h1),
      map_b64UrlChar_section _ (b64Sextets_lt bs2 h2)] at hmap
  have hu := congrArg b64Unsextets hs
  rwa [b64_roundtrip bs1 h1, b64_roundtrip bs2 h2] at hu

theorem setVersionBits_get : ∀ (r : List Nat) (i n : Nat),
    (setVersionBits i r).get? n = (r.get? n).map (vbit (i + n))
  | [], _, _ => by simp [setVersionBits]
  | b :: rest, i, 0 => by simp [setVersionBits]
  | b :: rest, i, n + 1 => by
      simp only [setVersionBits, List.get?]
      rw [setVersionBits_get rest (i + 1) n]
      have : i + 1 + n = i + (n + 1) := by omega
      rw [this]

theorem setVersionBits_lt : ∀ (r : List Nat) (i : Nat),
    (∀ b ∈ r, b < 256) → ∀ c ∈ setVersionBits i r, c < 256
  | [], _, _, c, hc => by simp [setVersionBits] at hc
  | b :: rest, i, h, c, hc => by
      simp only [setVersionBits, List.mem_cons] at hc
      rcases hc with hc | hc
      · have hb : b < 256 := h b (by simp)
        subst hc
        unfold vbit
        split
        · omega
        · split <;> omega
      · exact setVersionBits_lt rest (i + 1)
          (fun d hd => h d (by simp [hd])) c hc

theorem findKey_runGets_none (trace : List (String × Int)) :
    ∀ (m : SecretMap) (id : String), findKey m id = none →
      findKey (runGets m trace) id = none := by
  induction trace with
  | nil => intro m id h; exact h
  | cons p rest ih =>
      intro m id h
      obtain ⟨j, now⟩ := p
      simp only [runGets]
      exact ih _ id (by rw [get_and_delete_map]; exact findKey_eraseKey_none m j id h)

theorem runRace_none (id : String) : ∀ (ts : List Int) (m : SecretMap),
    findKey m id = none → (runRace m id ts).2 = 0
  | [], _, _ => rfl
  | t :: rest, m, h => by
      simp only [runRace, get_and_delete_absent m id t h, Option.isSome_none,
        Bool.false_eq_true, if_false, get_and_delete_map]
      rw [runRace_none id rest (eraseKey m id) (findKey_eraseKey_self m id)]

/-- C1.  One-time read on the in-memory backend: once `get_and_delete_secret`
has returned a secret for `id`, the id is gone from the map, and it stays gone
across any further trace of `get_and_delete_secret` calls, so every subsequent
call for the same id returns `Ok(None)` — absent, not an error. -/
theorem one_time_read (m : SecretMap) (id : String) (now : Int) (s : Secret)
    (h : (get_and_delete_secret m id now).2 = some s)
    (trace : List (String × Int)) (now2 : Int) :
    (get_and_delete_secret
        (runGets (get_and_delete_secret m id now).1 trace) id now2).2 = none := by
  apply get_and_delete_absent
  apply findKey_runGets_none
  rw [get_and_delete_map]
  exact findKey_eraseKey_self m id

theorem one_time_read_witness :
    (get_and_delete_secret
        (runGets
          (get_and_delete_secret
            [("x", Secret.new "x" 0 "c" "i" 60)] "x" 0).1
          [("y", 1), ("x", 2)]) "x" 3).2 = none :=
  one_time_read [("x", Secret.new "x" 0 "c" "i" 60)] "x" 0
    (Secret.mark_read (Secret.new "x" 0 "c" "i" 60) 0) (by decide)
    [("y", 1), ("x", 2)] 3

/-- C2.  TTL enforcement with a strict boundary: for a secret stored under
`id`, if `now ≥ created_at + ttl_secs` the lookup returns absent even though
the id was never read; if `now` is strictly earlier, the secret is returned
(with `read_at` stamped to `now`). -/
theorem ttl_boundary (m : SecretMap) (id : String) (now : Int) (s : Secret)
    (h : findKey m id = some s) :
    (s.created_at + (s.ttl_secs : Int) ≤ now →
      (get_and_delete_secret m id now).2 = none) ∧
    (now < s.created_at + (s.ttl_secs : Int) →
      (get_and_delete_secret m id now).2 = some (s.mark_read now)) := by
  unfold get_and_delete_secret
  rw [h]
  constructor
  · intro hle
    have : s.is_expired_at now = true := by
      simp [Secret.is_expired_at, Secret.expires_at, hle]
    simp [this]
  · intro hlt
    have : s.is_expired_at now = false := by
      simp [Secret.is_expired_at, Secret.expires_at]
      omega
    simp [this]

theorem ttl_boundary_witness :
    (get_and_delete_secret [("x", Secret.new "x" 0 "c" "i" 60)] "x" 60).2 = none ∧
    (get_and_delete_secret [("x", Secret.new "x" 0 "c" "i" 60)] "x" 59).2 =
      some (Secret.mark_read (Secret.new "x" 0 "c" "i" 60) 59) :=
  ⟨(ttl_boundary [("x", Secret.new "x" 0 "c" "i" 60)] "x" 60
      (Secret.new "x" 0 "c" "i" 60) (by decide)).1 (by decide),
   (ttl_boundary [("x", Secret.new "x" 0 "c" "i" 60)] "x" 59
      (Secret.new "x" 0 "c" "i" 60) (by decide)).2 (by decide)⟩

/-- C3.  Race safety.  The Rust implementation holds the store's exclusive
write lock for the entire remove-then-inspect, so any concurrent execution of
N `get_and_delete_secret` calls for one id is equivalent to running them in
some sequential order (`runRace`).  For a stored secret whose expiry has not
been reached when the race starts, exactly one call observes the secret; and
in any sequential order whatsoever, at most one call can observe it — the
same secret is never returned twice. -/
theorem race_safety (m : SecretMap) (id : String) (s : Secret)
    (h : findKey m id = some s) (t : Int) (rest : List Int)
    (ht : t < s.created_at + (s.ttl_secs : Int)) :
    (runRace m id (t :: rest)).2 = 1 ∧
    ∀ ts : List Int, (runRace m id ts).2 ≤ 1 := by
  constructor
  · have hfirst : (get_and_delete_secret m id t).2 =
        some (s.mark_read t) := (ttl_boundary m id t s h).2 ht
    simp only [runRace, hfirst, Option.isSome_some, if_true, get_and_delete_map]
    rw [runRace_none id rest (eraseKey m id) (findKey_eraseKey_self m id)]
  · intro ts
    cases ts with
    | nil => simp [runRace]
    | cons t0 rest0 =>
        simp only [runRace, get_and_delete_map]
        rw [runRace_none id rest0 (eraseKey m id) (findKey_eraseKey_self m id)]
        by_cases hs : (get_and_delete_secret m id t0).2.isSome <;> simp [hs]

theorem race_safety_witness :
    (runRace [("x", Secret.new "x" 0 "c" "i" 60)] "x" [1, 2, 3]).2 = 1 ∧
    ∀ ts : List Int,
      (runRace [("x", Secret.new "x" 0 "c" "i" 60)] "x" ts).2 ≤ 1 :=
  race_safety [("x", Secret.new "x" 0 "c" "i" 60)] "x"
    (Secret.new "x" 0 "c" "i" 60) (by decide) 1 [2, 3] (by decide)

/-- C4.  Round trip on the in-memory backend: `store_secret(ciphertext, iv,
ttl_secs)` with `1 ≤ ttl_secs ≤ 86400` followed by `get_and_delete_secret`
on the returned id before expiry yields a record whose `ciphertext`, `iv`
and `ttl_secs` are exactly the ones stored. -/
theorem round_trip (m : SecretMap) (ciphertext iv : String) (ttl_secs : Nat)
    (id : String) (now now2 : Int) (h1 : 1 ≤ ttl_secs) (h2 : ttl_secs ≤ 86400)
    (hnow : now2 < now + (ttl_secs : Int)) :
    ∃ r : Secret,
      (get_and_delete_secret
          (store_secret m ciphertext iv ttl_secs id now).1 id now2).2 = some r ∧
      r.ciphertext = ciphertext ∧ r.iv = iv ∧ r.ttl_secs = ttl_secs := by
  refine ⟨(Secret.new id now ciphertext iv ttl_secs).mark_read now2, ?_, rfl, rfl, rfl⟩
  have hf : findKey (store_secret m ciphertext iv ttl_secs id now).1 id =
      some (Secret.new id now ciphertext iv ttl_secs) :=
    findKey_insertKey_self m id _
  exact (ttl_boundary _ id now2 _ hf).2 hnow

theorem round_trip_witness :
    ∃ r : Secret,
      (get_and_delete_secret
          (store_secret [] "ctext" "iv-val" 60 "X" 0).1 "X" 0).2 = some r ∧
      r.ciphertext = "ctext" ∧ r.iv = "iv-val" ∧ r.ttl_secs = 60 :=
  round_trip [] "ctext" "iv-val" 60 "X" 0 0 (by decide) (by decide) (by decide)

/-- C5.  Remove-then-inspect effect: after any `get_and_delete_secret(id)` —
whether it returned the secret, found nothing, or dropped an expired entry —
the map holds no entry for `id` (an expired entry is not reinserted), and the
entry under every other id is exactly what it was before. -/
theorem remove_then_inspect (m : SecretMap) (id : String) (now : Int) :
    findKey ((get_and_delete_secret m id now).1) id = none ∧
    ∀ j : String, j ≠ id →
      findKey ((get_and_delete_secret m id now).1) j = findKey m j := by
  rw [get_and_delete_map]
  exact ⟨findKey_eraseKey_self m id, fun j hj => findKey_eraseKey_ne m id j hj⟩

theorem remove_then_inspect_witness :
    findKey ((get_and_delete_secret
        [("x", Secret.new "x" 600 "c" "i" 1), ("y", Secret.new "y" 0 "d" "j" 60)]
        "x" 601).1) "x" = none ∧
    findKey ((get_and_delete_secret
        [("x", Secret.new "x" 600 "c" "i" 1), ("y", Secret.new "y" 0 "d" "j" 60)]
        "x" 601).1) "y" = some (Secret.new "y" 0 "d" "j" 60) := by
  have h := remove_then_inspect
    [("x", Secret.new "x" 600 "c" "i" 1), ("y", Secret.new "y" 0 "d" "j" 60)]
    "x" 601
  refine ⟨h.1, ?_⟩
  rw [h.2 "y" (by decide)]
  decide

/-- Every bucket held by the limiter has `count` at most the configured
maximum. -/
def bucketInv (rl : RateLimiter) : Prop :=
  ∀ k b, findKey rl.buckets k = some b → b.count ≤ rl.max_requests_per_window

/-- C6.  Allow-then-deny: with `max_requests_per_window = 3` and a 60-second
window, three consecutive `check("a")` calls within the window return `true`
and the fourth returns `false`; in general a full bucket is denied without
being incremented (the bucket is written back unchanged), so counts never
exceed the maximum (`bucketInv` is preserved by every `check`). -/
theorem rate_limit_allow_then_deny :
    (runChecks ⟨3, 60, []⟩ "a" [0, 1, 2, 3]).2 = [true, true, true, false] ∧
    (∀ (rl : RateLimiter) (identity : String) (now : Nat) (b : RateBucket),
      findKey rl.buckets identity = some b →
      now - b.window_start ≤ rl.window →
      rl.max_requests_per_window ≤ b.count →
      (rl.check identity now).2 = false ∧
      findKey ((rl.check identity now).1).buckets identity = some b) ∧
    (∀ (rl : RateLimiter) (identity : String) (now : Nat),
      bucketInv rl → bucketInv (rl.check identity now).1) := by
  refine ⟨by decide, ?_, ?_⟩
  · intro rl identity now b hf hwin hmax
    have hentry : rl.entry identity now = b := by
      simp [RateLimiter.entry, hf]
    have hrefresh : rl.refreshed identity now = b := by
      rw [RateLimiter.refreshed, hentry, if_neg (by omega)]
    simp only [RateLimiter.check]
    rw [hrefresh, if_pos hmax]
    exact ⟨rfl, findKey_insertKey_self rl.buckets identity b⟩
  · intro rl identity now hinv
    have hre : (rl.refreshed identity now).count ≤ rl.max_requests_per_window ∨
        (rl.refreshed identity now).count = 0 := by
      rw [RateLimiter.refreshed]
      by_cases hc : rl.window < now - (rl.entry identity now).window_start
      · rw [if_pos hc]
        right
        rfl
      · rw [if_neg hc]
        rcases hfind : findKey rl.buckets identity with _ | b
        · right
          simp [RateLimiter.entry, hfind]
        · left
          have := hinv identity b hfind
          simpa [RateLimiter.entry, hfind] using this
    simp only [RateLimiter.check]
    by_cases hmax : rl.max_requests_per_window ≤
        (rl.refreshed identity now).count
    · rw [if_pos hmax]
      intro k b hk
      show b.count ≤ rl.max_requests_per_window
      by_cases hkid : k = identity
      · subst hkid
        replace hk : findKey (insertKey rl.buckets k (rl.refreshed k now)) k =
            some b := hk
        rw [findKey_insertKey_self] at hk
        cases hk
        omega
      · replace hk : findKey (insertKey rl.buckets identity
            (rl.refreshed identity now)) k = some b := hk
        rw [findKey_insertKey_ne _ _ _ _ hkid] at hk
        exact hinv k b hk
    · rw [if_neg hmax]
      intro k b hk
      show b.count ≤ rl.max_requests_per_window
      by_cases hkid : k = identity
      · subst hkid
        replace hk : findKey (insertKey rl.buckets k
            { rl.refreshed k now with
                count := (rl.refreshed k now).count + 1 }) k = some b := hk
        rw [findKey_insertKey_self] at hk
        cases hk
        show (rl.refreshed k now).count + 1 ≤ rl.max_requests_per_window
        omega
      · replace hk : findKey (insertKey rl.buckets identity
            { rl.refreshed identity now with
                count := (rl.refreshed identity now).count + 1 }) k =
            some b := hk
        rw [findKey_insertKey_ne _ _ _ _ hkid] at hk
        exact hinv k b hk

theorem rate_limit_allow_then_deny_witness :
    (runChecks ⟨3, 60, []⟩ "a" [0, 1, 2, 3]).2 = [true, true, true, false] ∧
    ((RateLimiter.check ⟨3, 60, [("a", ⟨0, 3⟩)]⟩ "a" 10).2 = false ∧
      findKey ((RateLimiter.check ⟨3, 60, [("a", ⟨0, 3⟩)]⟩ "a" 10).1).buckets "a" =
        some ⟨0, 3⟩) :=
  ⟨rate_limit_allow_then_deny.1,
   rate_limit_allow_then_deny.2.1 ⟨3, 60, [("a", ⟨0, 3⟩)]⟩ "a" 10 ⟨0, 3⟩
     (by decide) (by decide) (by decide)⟩

/-- C7.  Window reset: when a bucket exists and strictly more than `window`
has elapsed since its `window_start`, `check` hard-resets the bucket to
`window_start = now, count = 0` and (whenever at least one request per window
is allowed) returns `true`, leaving the bucket at `count = 1`; when the
elapsed time equals the window exactly, no reset happens — `window_start`
is kept and the count is not cleared. -/
theorem rate_limit_window_reset (rl : RateLimiter) (identity : String)
    (now : Nat) (b : RateBucket) (h : findKey rl.buckets identity = some b) :
    (rl.window < now - b.window_start → 1 ≤ rl.max_requests_per_window →
      (rl.check identity now).2 = true ∧
      findKey ((rl.check identity now).1).buckets identity =
        some { window_start := now, count := 1 }) ∧
    (now - b.window_start = rl.window →
      ∃ b2, findKey ((rl.check identity now).1).buckets identity = some b2 ∧
        b2.window_start = b.window_start ∧ b.count ≤ b2.count) := by
  have hentry : rl.entry identity now = b := by
    simp [RateLimiter.entry, h]
  constructor
  · intro hwin hmax
    have hrefresh : rl.refreshed identity now =
        { window_start := now, count := 0 } := by
      rw [RateLimiter.refreshed, hentry, if_pos hwin]
    have hnotmax : ¬ rl.max_requests_per_window ≤
        (rl.refreshed identity now).count := by
      rw [hrefresh]
      show ¬ rl.max_requests_per_window ≤ 0
      omega
    simp only [RateLimiter.check]
    rw [if_neg hnotmax, hrefresh]
    exact ⟨rfl, findKey_insertKey_self rl.buckets identity _⟩
  · intro heq
    have hrefresh : rl.refreshed identity now = b := by
      rw [RateLimiter.refreshed, hentry, if_neg (by omega)]
    simp only [RateLimiter.check]
    rw [hrefresh]
    by_cases hmax : rl.max_requests_per_window ≤ b.count
    · refine ⟨b, ?_, rfl, Nat.le_refl _⟩
      rw [if_pos hmax]
      exact findKey_insertKey_self rl.buckets identity b
    · refine ⟨{ b with count := b.count + 1 }, ?_, rfl, Nat.le_succ _⟩
      rw [if_neg hmax]
      exact findKey_insertKey_self rl.buckets identity _

theorem rate_limit_window_reset_witness :
    ((RateLimiter.check ⟨3, 60, [("a", ⟨0, 3⟩)]⟩ "a" 61).2 = true ∧
      findKey ((RateLimiter.check ⟨3, 60, [("a", ⟨0, 3⟩)]⟩ "a" 61).1).buckets "a" =
        some ⟨61, 1⟩) ∧
    (∃ b2, findKey ((RateLimiter.check ⟨3, 60, [("a", ⟨0, 2⟩)]⟩ "a" 60).1).buckets "a" =
        some b2 ∧ b2.window_start = 0 ∧ 2 ≤ b2.count) :=
  ⟨(rate_limit_window_reset ⟨3, 60, [("a", ⟨0, 3⟩)]⟩ "a" 61 ⟨0, 3⟩
      (by decide)).1 (by decide) (by decide),
   (rate_limit_window_reset ⟨3, 60, [("a", ⟨0, 2⟩)]⟩ "a" 60 ⟨0, 2⟩
      (by decide)).2 (by decide)⟩

/-- C10.  Zero-limit edge case: with `max_requests_per_window = 0`, `check`
denies every identity on every call — including the very first call, where
the lazily created bucket's fresh `count = 0` already satisfies
`count >= max`. -/
theorem rate_limit_zero_max_denies (rl : RateLimiter) (identity : String)
    (now : Nat) (h : rl.max_requests_per_window = 0) :
    (rl.check identity now).2 = false := by
  simp [RateLimiter.check, RateLimiter.refreshed, RateLimiter.entry, h,
    Nat.zero_le]

theorem rate_limit_zero_max_denies_witness :
    (RateLimiter.check ⟨0, 60, []⟩ "a" 0).2 = false :=
  rate_limit_zero_max_denies ⟨0, 60, []⟩ "a" 0 rfl

/-- No secret stored in the in-memory map is marked read. -/
def storeInv (m : SecretMap) : Prop :=
  ∀ id s, findKey m id = some s → s.read_at = none

/-- C9.  Stored-map invariant: the empty store satisfies it, `store_secret`
inserts a record with `read_at = None` (and returns that record), and
`get_and_delete_secret` calls `mark_read` only on the copy already removed
from the map — so no operation ever leaves a secret with `read_at` set
inside the store. -/
theorem stored_never_read :
    storeInv ([] : SecretMap) ∧
    (∀ (m : SecretMap) (c i : String) (t : Nat) (id : String) (now : Int),
      storeInv m →
      storeInv (store_secret m c i t id now).1 ∧
      (store_secret m c i t id now).2.read_at = none) ∧
    (∀ (m : SecretMap) (id : String) (now : Int),
      storeInv m → storeInv (get_and_delete_secret m id now).1) := by
  refine ⟨?_, ?_, ?_⟩
  · intro id s h
    simp [findKey] at h
  · intro m c i t id now hinv
    refine ⟨?_, rfl⟩
    intro j s hj
    by_cases hjid : j = id
    · subst hjid
      rw [store_secret, findKey_insertKey_self] at hj
      cases hj
      rfl
    · rw [store_secret, findKey_insertKey_ne _ _ _ _ hjid] at hj
      exact hinv j s hj
  · intro m id now hinv j s hj
    rw [get_and_delete_map] at hj
    by_cases hjid : j = id
    · subst hjid
      rw [findKey_eraseKey_self] at hj
      cases hj
    · rw [findKey_eraseKey_ne _ _ _ hjid] at hj
      exact hinv j s hj

theorem stored_never_read_witness :
    storeInv (store_secret [] "c" "i" 60 "x" 0).1 ∧
    (store_secret [] "c" "i" 60 "x" 0).2.read_at = none :=
  stored_never_read.2.1 [] "c" "i" 60 "x" 0 stored_never_read.1

/-- C8, counterexample.  The claim reads `Secret::new`'s id as a text
rendering carrying at least 128 bits of entropy from the random source.
`Uuid::new_v4` draws sixteen random bytes (128 bits) but overwrites the
version nibble of byte 6 and the two variant bits of byte 8, so the rendering
is not injective on the 128 drawn bits: two distinct draws — all-zero bytes,
and the same with byte 6 set to `0x10` — produce the very same id.  The id
therefore carries at most 122 bits of the source's entropy. -/
theorem id_entropy_counterexample :
    (List.replicate 16 0 : List Nat) ≠
      [0, 0, 0, 0, 0, 0, 16, 0, 0, 0, 0, 0, 0, 0, 0, 0] ∧
    (Secret.newFromRandom (List.replicate 16 0) 0 "c" "i" 60).id =
      (Secret.newFromRandom [0, 0, 0, 0, 0, 0, 16, 0, 0, 0, 0, 0, 0, 0, 0, 0]
        0 "c" "i" 60).id := by
  exact ⟨by decide, by decide⟩

/-- C8, amended.  Every id produced by `Secret::new` is a padding-free
URL-safe rendering — only ASCII alphanumerics, `-` and `_` — of the
`Uuid::new_v4` value, and that rendering is lossless (injective on byte
strings), but the UUID fixes six bits — byte 6 has high nibble `4` (the
version) and byte 8 has high two bits `10` (the variant) — so the id carries
122 bits of entropy from the random source, not 128. -/
theorem id_urlsafe_and_122_bits :
    (∀ (r : List Nat) (now : Int) (c i : String) (t : Nat),
      (∀ b ∈ r, b < 256) →
      ∀ ch ∈ (Secret.newFromRandom r now c i t).id.data,
        isUrlSafeChar ch = true) ∧
    (∀ bs1 bs2 : List Nat, (∀ b ∈ bs1, b < 256) → (∀ b ∈ bs2, b < 256) →
      urlSafeNoPadEncode bs1 = urlSafeNoPadEncode bs2 → bs1 = bs2) ∧
    (∀ (r : List Nat) (b : Nat),
      (uuidV4Bytes r).get? 6 = some b → b / 16 = 4) ∧
    (∀ (r : List Nat) (b : Nat),
      (uuidV4Bytes r).get? 8 = some b → b / 64 = 2) := by
  refine ⟨?_, urlSafeNoPadEncode_inj, ?_, ?_⟩
  · intro r now c i t hr ch hch
    have hdata : (Secret.newFromRandom r now c i t).id.data =
        (b64Sextets (uuidV4Bytes r)).map b64UrlChar := rfl
    rw [hdata] at hch
    rcases List.mem_map.mp hch with ⟨n, hn, rfl⟩
    exact isUrlSafeChar_b64UrlChar n
      (b64Sextets_lt (uuidV4Bytes r) (setVersionBits_lt r 0 hr) n hn)
  · intro r b hb
    rw [uuidV4Bytes, setVersionBits_get r 0 6, Nat.zero_add] at hb
    rcases hget : r.get? 6 with _ | a
    · rw [hget] at hb
      cases hb
    · rw [hget] at hb
      simp only [Option.map_some'] at hb
      cases hb
      have hv : vbit 6 a = a % 16 + 64 := rfl
      rw [hv]
      omega
  · intro r b hb
    rw [uuidV4Bytes, setVersionBits_get r 0 8, Nat.zero_add] at hb
    rcases hget : r.get? 8 with _ | a
    · rw [hget] at hb
      cases hb
    · rw [hget] at hb
      simp only [Option.map_some'] at hb
      cases hb
      have hv : vbit 8 a = a % 64 + 128 := rfl
      rw [hv]
      omega

theorem id_urlsafe_and_122_bits_witness :
    (∀ ch ∈ (Secret.newFromRandom (List.replicate 16 255) 0 "c" "i" 60).id.data,
      isUrlSafeChar ch = true) ∧
    ∀ b : Nat,
      (uuidV4Bytes (List.replicate 16 255)).get? 6 = some b → b / 16 = 4 :=
  ⟨id_urlsafe_and_122_bits.1 (List.replicate 16 255) 0 "c" "i" 60 (by decide),
   fun b hb => id_urlsafe_and_122_bits.2.2.1 (List.replicate 16 255) b hb⟩

end Cendre
